import Mathlib

/-!
Verification development for the rag-pipeline-photo backend.

Shallow embedding of the retrieval-and-generation pipeline:
  - `app/utils/chunker.py` (chunk_markdown and its helpers),
  - `app/services/embedding_service.py` (batched embedding client),
  - `app/services/qdrant_service.py` (collection readiness, upsert, MMR rerank),
  - `app/services/rag_service.py` (orchestrator event stream, relevance filter,
    vision-capability cache, model availability resolver).

Modelling conventions:
  - Python `float` values (relevance scores, timestamps, lambda) are embedded as
    exact rationals; the claims under study do not depend on IEEE rounding.
  - Python strings are embedded as Lean `String`, sliced and stripped by code
    point; the whitespace set is the ASCII set Python uses for `str.strip`.
  - Stateful code is embedded as explicit state passing; external I/O outcomes
    (HTTP responses, backend stream lines) are passed in as explicit values.
  - Fallible code returns `Except` / is modelled with explicit outcome sums.
-/

/-- Python whitespace class (ASCII part): the characters `str.strip` and the
regex class in `chunker.py` treat as whitespace. -/
def isPyWS (c : Char) : Bool :=
  c == ' ' || c == '\t' || c == '\n' || c == '\r' ||
  c == Char.ofNat 11 || c == Char.ofNat 12

/-- Python `s.strip()`: drop leading and trailing whitespace. -/
def pyStrip (s : String) : String :=
  String.mk (((s.toList.dropWhile isPyWS).reverse.dropWhile isPyWS).reverse)

/-- Python `s[:n]`: first `n` code points of a string. -/
def pyTake (n : Nat) (s : String) : String :=
  String.mk (s.toList.take n)

/-- ASCII lower-casing of one character, as `str.lower` does on ASCII input. -/
def lowerChar (c : Char) : Char :=
  if 'A' ≤ c ∧ c ≤ 'Z' then Char.ofNat (c.toNat + 32) else c

/-- ASCII `s.lower()`. -/
def strLower (s : String) : String :=
  String.mk (s.toList.map lowerChar)

/-- Model of `needle in hay` on character lists (Python substring containment). -/
def subIn : List Char → List Char → Bool
  | n, [] => n.isEmpty
  | n, h :: t => n.isPrefixOf (h :: t) || subIn n t

/-- Python `s.split("\n")`: split on every single newline, keeping empty
pieces; the empty string yields one empty piece. -/
def splitNlAux : List Char → List Char → List String
  | [], cur => [String.mk cur.reverse]
  | c :: rest, cur =>
      if c == '\n' then String.mk cur.reverse :: splitNlAux rest []
      else splitNlAux rest (c :: cur)

/-- Python `markdown.split("\n")`. -/
def splitNl (s : String) : List String := splitNlAux s.toList []

/-- Value of a decimal digit string, as Python `int` on a `\d+` match. -/
def digitsToNat (ds : List Char) : Nat :=
  ds.foldl (fun acc c => acc * 10 + (c.toNat - '0'.toNat)) 0

/-! ## Document chunker — `app/utils/chunker.py` -/

/-- A chunk produced by `chunk_markdown` (dict with keys
`content`, `title`, `page`, `chunk_index`). -/
structure MdChunk where
  content : String
  title : String
  page : Nat
  chunk_index : Nat
deriving DecidableEq, Repr

/-- Model of `estimate_tokens(text) = len(text) // 4`. -/
def estimate_tokens (s : String) : Nat := s.length / 4

/-- Model of `re.match(r"^(#{1,3})\s+(.+)", line)` followed by `group(2).strip()`:
returns the stripped heading text when the line is a level 1-3 heading. -/
def parseHeader (line : String) : Option String :=
  let cs := line.toList
  let hashes := cs.takeWhile (· == '#')
  let rest := cs.dropWhile (· == '#')
  if 1 ≤ hashes.length ∧ hashes.length ≤ 3 then
    let ws := rest.takeWhile isPyWS
    let body := rest.dropWhile isPyWS
    if ws ≠ [] ∧ body ≠ [] then some (pyStrip (String.mk body)) else none
  else none

/-- Loop of `_split_by_headers`: walk the lines, cutting a section at each
heading line; a section is `(header text or none, joined body lines)`. -/
def sbhLoop : Option String → List String → List String → List (Option String × String)
  | hdr, cur, [] => if cur ≠ [] then [(hdr, String.intercalate "\n" cur)] else []
  | hdr, cur, line :: rest =>
      match parseHeader line with
      | some h =>
          (if cur ≠ [] then [(hdr, String.intercalate "\n" cur)] else [])
            ++ sbhLoop (some h) [] rest
      | none => sbhLoop hdr (cur ++ [line]) rest

/-- Model of `_split_by_headers(markdown)`: sections list, never empty
(`sections or [(None, markdown)]`). -/
def splitByHeaders (markdown : String) : List (Option String × String) :=
  let s := sbhLoop none [] (splitNl markdown)
  if s = [] then [(none, markdown)] else s

/-- Attempt to match `##\s*Page\s*(\d+)` at the head of a character list;
returns the page number on success. -/
def pageAt (cs : List Char) : Option Nat :=
  match cs with
  | '#' :: '#' :: rest =>
      let r1 := rest.dropWhile isPyWS
      if ("Page".toList).isPrefixOf r1 then
        let r2 := (r1.drop 4).dropWhile isPyWS
        let ds := r2.takeWhile Char.isDigit
        if ds ≠ [] then some (digitsToNat ds) else none
      else none
  | _ => none

/-- Scan for the leftmost match of `##\s*Page\s*(\d+)`
(`re.search` in `chunk_markdown`). -/
def fpmLoop : List Char → Option Nat
  | [] => none
  | c :: rest =>
      match pageAt (c :: rest) with
      | some n => some n
      | none => fpmLoop rest

/-- Model of `re.search(r"##\s*Page\s*(\d+)", s)` yielding `int(group(1))`. -/
def findPageMarker (s : String) : Option Nat := fpmLoop s.toList

/-- State machine for `re.split(r"\n{2,}", content)`: `norm` is ordinary text,
`nl1` has seen one newline, `skip` is inside a separator run. -/
inductive SbMode | norm | nl1 | skip
deriving DecidableEq, Repr

/-- Split on runs of two or more newlines, the loop of
`re.split(r"\n{2,}", content)`. -/
def sbM : SbMode → List Char → List Char → List String
  | .norm, [], cur => [String.mk cur.reverse]
  | .nl1, [], cur => [String.mk ('\n' :: cur).reverse]
  | .skip, [], cur => [String.mk cur.reverse]
  | .norm, c :: rest, cur =>
      if c == '\n' then sbM .nl1 rest cur else sbM .norm rest (c :: cur)
  | .nl1, c :: rest, cur =>
      if c == '\n' then String.mk cur.reverse :: sbM .skip rest []
      else sbM .norm rest (c :: '\n' :: cur)
  | .skip, c :: rest, cur =>
      if c == '\n' then sbM .skip rest cur else sbM .norm rest (c :: cur)

/-- Model of `re.split(r"\n{2,}", s)`. -/
def splitMulNl (s : String) : List String := sbM .norm s.toList []

/-- Model of `[p.strip() for p in re.split(r"\n{2,}", content) if p.strip()]`. -/
def paragraphsOf (content : String) : List String :=
  ((splitMulNl content).map pyStrip).filter (· ≠ "")

/-- Overlap recollection: walk `reversed(current_chunk)`, prepending paragraphs
while the overlap budget is respected, and stop at the first overflow. Returns
the overlap paragraphs (in original order) and their token size. -/
def ovLoop (cap : Nat) : List String → Nat → List String → List String × Nat
  | [], sz, acc => (acc, sz)
  | p :: ps, sz, acc =>
      if sz + estimate_tokens p ≤ cap then
        ovLoop cap ps (sz + estimate_tokens p) (p :: acc)
      else (acc, sz)

/-- Inner paragraph loop of `chunk_markdown`: greedy packing of paragraphs
into chunks of at most `chunkSize` estimated tokens, carrying the overlap of
the previous chunk, followed by the flush of the last partial chunk. -/
def paraLoop (chunkSize overlapCap : Nat) (title : String) (page : Nat) :
    List String → List String → Nat → List MdChunk → List MdChunk
  | [], cur, _sz, chunks =>
      if cur ≠ [] then
        chunks ++ [⟨String.intercalate "\n\n" cur, title, page, chunks.length⟩]
      else chunks
  | para :: ps, cur, sz, chunks =>
      let pt := estimate_tokens para
      if sz + pt > chunkSize ∧ cur ≠ [] then
        let chunks2 := chunks ++
          [⟨String.intercalate "\n\n" cur, title, page, chunks.length⟩]
        let ov := ovLoop overlapCap cur.reverse 0 []
        paraLoop chunkSize overlapCap title page ps (ov.1 ++ [para]) (ov.2 + pt) chunks2
      else paraLoop chunkSize overlapCap title page ps (cur ++ [para]) (sz + pt) chunks

/-- Section loop of `chunk_markdown`: carries the running title and page. -/
def sectionLoop (chunkSize overlapCap : Nat) :
    List (Option String × String) → String → Nat → List MdChunk → List MdChunk
  | [], _title, _page, chunks => chunks
  | (st, sc) :: rest, title, page, chunks =>
      let title2 := match st with
        | some t => if t ≠ "" then t else title
        | none => title
      let page2 := match findPageMarker (st.getD "") with
        | some n => n
        | none => page
      let chunks2 := paraLoop chunkSize overlapCap title2 page2 (paragraphsOf sc) [] 0 chunks
      sectionLoop chunkSize overlapCap rest title2 page2 chunks2

/-- Model of `chunk_markdown(markdown, chunk_size=600, chunk_overlap=50)` from
`app/utils/chunker.py`: header-based sectioning, greedy paragraph packing with
overlap, and the final fallback chunk that is appended only when no chunk was
produced AND `markdown.strip()` is non-empty. -/
def chunk_markdown (markdown : String) (chunkSize : Nat := 600)
    (chunkOverlap : Nat := 50) : List MdChunk :=
  let chunks := sectionLoop chunkSize chunkOverlap (splitByHeaders markdown) "Introduction" 1 []
  if chunks = [] ∧ pyStrip markdown ≠ "" then
    [⟨pyTake 3000 markdown, "Document", 1, 0⟩]
  else chunks

/-! ## Embedding client — `app/services/embedding_service.py` -/

/-- Model of `EMBEDDING_BATCH_SIZE = 8`. -/
def EMBEDDING_BATCH_SIZE : Nat := 8

/-- Loop of the batching `for i in range(0, len(texts), EMBEDDING_BATCH_SIZE)`:
walk the texts filling the current batch (reversed in `acc`) until its
remaining capacity `n` is exhausted, then emit it and start the next one. -/
def tbAux : List String → List String → Nat → List (List String)
  | [], acc, _n => if acc.isEmpty then [] else [acc.reverse]
  | t :: ts, acc, 0 => acc.reverse :: tbAux ts [t] (EMBEDDING_BATCH_SIZE - 1)
  | t :: ts, acc, n + 1 => tbAux ts (t :: acc) n

/-- The successive slices `texts[i:i+EMBEDDING_BATCH_SIZE]`, in processing
order (each batch runs to completion before the next starts). -/
def toBatches (texts : List String) : List (List String) :=
  tbAux texts [] EMBEDDING_BATCH_SIZE

/-- Model of `_single_embedding(text, client)`: one call to the embedding backend,
abstracted by the oracle `embed`; an empty vector raises. -/
def single_embedding (embed : String → List ℚ) (t : String) : Except String (List ℚ) :=
  let e := embed t
  if e = [] then Except.error ("Embedding vide retourné pour : " ++ pyTake 50 t)
  else Except.ok e

/-- Batch loop of `_do_get_embeddings`: for each batch, issue all its calls
(`asyncio.gather`, here sequenced by `mapM`, which propagates the first
failure as `gather` does) and extend `results`. -/
def dgeLoop (embed : String → List ℚ) :
    List (List String) → List (List ℚ) → Except String (List (List ℚ))
  | [], acc => Except.ok acc
  | b :: bs, acc =>
      match b.mapM (single_embedding embed) with
      | Except.error e => Except.error e
      | Except.ok es => dgeLoop embed bs (acc ++ es)

/-- Model of `_do_get_embeddings(texts, client)` (the body of `get_embeddings`):
process the batches in order, accumulating results in input order. -/
def do_get_embeddings (embed : String → List ℚ) (texts : List String) :
    Except String (List (List ℚ)) :=
  dgeLoop embed (toBatches texts) []

/-! ## Vector index adapter — `app/services/qdrant_service.py` -/

/-- Process-wide qdrant adapter state plus counters for the external calls:
`ready` is the `_collection_ready` flag, `collections` the names the backend
holds, `checks` counts `get_collections` calls, `creates` counts
`create_collection` calls. -/
structure QdrantState where
  ready : Bool
  collections : List String
  checks : Nat
  creates : Nat
deriving DecidableEq, Repr

/-- Model of `ensure_collection(dim)`: short-circuit on `_collection_ready`, otherwise
one existence check and, when absent, one creation; finally set the flag. -/
def ensure_collection (collName : String) (_dim : Nat) (s : QdrantState) : QdrantState :=
  if s.ready then s
  else
    let s1 : QdrantState := { s with checks := s.checks + 1 }
    let s2 : QdrantState :=
      if collName ∈ s1.collections then s1
      else { s1 with creates := s1.creates + 1, collections := s1.collections ++ [collName] }
    { s2 with ready := true }

/-- A chunk as consumed by `upsert_chunks` (dict access with defaults;
`chunk_index` may be absent, in which case the enumerate index is used). -/
structure UpChunk where
  title : String
  page : Nat
  content : String
  chunk_index : Option Nat
  image_filenames : List String
deriving DecidableEq, Repr

/-- Payload of one qdrant point as written by `upsert_chunks`. -/
structure UpPayload where
  document_id : String
  title : String
  page : Nat
  content : String
  chunk_index : Nat
  image_filenames : List String
deriving DecidableEq, Repr

/-- One qdrant `PointStruct` as built by `upsert_chunks`. -/
structure UpPoint where
  id : String
  vector : List ℚ
  payload : UpPayload
deriving DecidableEq, Repr

/-- The point comprehension of `upsert_chunks`:
`for i, (chunk, embedding) in enumerate(zip(chunks, embeddings))`, with ids
drawn from the uuid4 supply `ids` (one fresh id per point, independent of the
chunk content). -/
def upsertPoints (ids : Nat → String) (docId : String) :
    Nat → List UpChunk → List (List ℚ) → List UpPoint
  | _i, [], _ => []
  | _i, _ :: _, [] => []
  | i, c :: cs, e :: es =>
      { id := ids i, vector := e,
        payload := { document_id := docId, title := c.title, page := c.page,
                     content := c.content, chunk_index := c.chunk_index.getD i,
                     image_filenames := c.image_filenames } }
        :: upsertPoints ids docId (i + 1) cs es

/-- Model of `upsert_chunks(chunks, embeddings, user_id, document_id)`: builds the
points (zip truncation), performs one bulk write when non-empty, and returns
`len(points)`. The write itself is external; the function returns the points
written and the count. -/
def upsert_chunks (ids : Nat → String) (chunks : List UpChunk)
    (embeddings : List (List ℚ)) (docId : String) : List UpPoint × Nat :=
  let points := upsertPoints ids docId 0 chunks embeddings
  (points, points.length)

/-- A retrieval candidate as produced by `search_chunks` (payload fields,
relevance score, and the stored vector when MMR is requested). -/
structure RetrievalCandidate where
  document_id : String
  title : String
  page : Nat
  content : String
  score : ℚ
  image_filenames : List String
  vector : List ℚ
deriving DecidableEq, Repr

/-- Python `max(l, key=key)` for a non-empty list `b :: l`: the FIRST element
with maximal key (later elements replace the best only when strictly
greater). -/
def pickBest (key : RetrievalCandidate → ℚ) (b : RetrievalCandidate) :
    List RetrievalCandidate → RetrievalCandidate
  | [] => b
  | x :: xs => pickBest key (if key b < key x then x else b) xs

/-- Model of `max(_cosine_similarity(c.vector, s.vector) for s in selected)` with the
cosine similarity abstracted by `sim` (its real-valued square root is not
representable exactly; every theorem below holds for all `sim`). -/
def maxSim (sim : List ℚ → List ℚ → ℚ) (c : RetrievalCandidate) :
    List RetrievalCandidate → ℚ
  | [] => 0
  | [s] => sim c.vector s.vector
  | s :: s2 :: ss => max (sim c.vector s.vector) (maxSim sim c (s2 :: ss))

/-- Fuel-limited leftmost-max selection sort by descending score: the
behaviour of the stable Python `selected.sort(key=lambda c: c["score"],
reverse=True)` (equal scores keep their relative order). The fuel equals the
list length at the top-level wrapper. -/
def sdAux : Nat → List RetrievalCandidate → List RetrievalCandidate
  | 0, _ => []
  | _f + 1, [] => []
  | f + 1, r :: rs =>
      let b := pickBest (fun c => c.score) r rs
      b :: sdAux f ((r :: rs).erase b)

/-- Stable sort by descending relevance score. -/
def sortScoreDesc (l : List RetrievalCandidate) : List RetrievalCandidate :=
  sdAux l.length l

/-- Selection loop of `_mmr_rerank`: `while len(selected) < top_k and
remaining`. The first pick maximises the raw score; subsequent picks maximise
`lambda * relevance - (1 - lambda) * max_sim_to_selected`. The fuel is
`top_k - len(selected)`. -/
def mmrLoop (sim : List ℚ → List ℚ → ℚ) (lam : ℚ) :
    Nat → List RetrievalCandidate → List RetrievalCandidate → List RetrievalCandidate
  | 0, selected, _ => selected
  | _f + 1, selected, [] => selected
  | f + 1, selected, r :: rs =>
      let key := fun c =>
        if selected.isEmpty then c.score
        else lam * c.score - (1 - lam) * maxSim sim c selected
      let best := pickBest key r rs
      mmrLoop sim lam f (selected ++ [best]) ((r :: rs).erase best)

/-- Model of `_mmr_rerank(candidates, query_embedding, top_k, lambda_mmr)`: greedy MMR
selection followed by the stable descending re-sort for display. The
`query_embedding` parameter is kept (the source takes it but only uses the
per-candidate scores already computed by qdrant). -/
def mmr_rerank (sim : List ℚ → List ℚ → ℚ) (candidates : List RetrievalCandidate)
    (_queryEmbedding : List ℚ) (top_k : Nat) (lambda_mmr : ℚ) :
    List RetrievalCandidate :=
  if candidates = [] then []
  else sortScoreDesc (mmrLoop sim lambda_mmr top_k [] candidates)

/-! ## RAG orchestrator — `app/services/rag_service.py` -/

/-- Model of `_MIN_RELEVANT_SCORE = 0.45`. -/
def MIN_RELEVANT_SCORE : ℚ := 45 / 100

/-- Python `round(x, 3)` on an exact value: round half to even at the third
decimal. -/
def round3 (q : ℚ) : ℚ :=
  let x := q * 1000
  let f : ℤ := x.floor
  let r := x - f
  let n : ℤ :=
    if r < 1 / 2 then f
    else if 1 / 2 < r then f + 1
    else if 2 ∣ f then f else f + 1
  (n : ℚ) / 1000

/-- One entry of the `sources` event payload. -/
structure SourceItem where
  document_id : String
  title : String
  page : Nat
  content : String
  score : ℚ
  image_filenames : List String
deriving DecidableEq, Repr

/-- The `sources` entry built from one retrieved candidate (full chunk
content, score rounded to three decimals). -/
def toSource (c : RetrievalCandidate) : SourceItem :=
  { document_id := c.document_id, title := c.title, page := c.page,
    content := c.content, score := round3 c.score,
    image_filenames := c.image_filenames }

/-- Model of `[c for c in chunks if c.get("score", 0) >= _MIN_RELEVANT_SCORE]`. -/
def relevantChunks (chunks : List RetrievalCandidate) : List RetrievalCandidate :=
  chunks.filter (fun c => decide (MIN_RELEVANT_SCORE ≤ c.score))

/-- Loop of `_build_prompt`: pack `[Source i: title (Page p)]\ncontent` blocks
while the character budget permits; a block that would overflow stops the
loop entirely. -/
def bpLoop (maxChars : Nat) :
    List RetrievalCandidate → Nat → Nat → List String → List String
  | [], _i, _total, parts => parts
  | c :: cs, i, total, parts =>
      let pageStr := if c.page ≠ 0 then " (Page " ++ toString c.page ++ ")" else ""
      let txt := "[Source " ++ toString (i + 1) ++ ": " ++ c.title ++ pageStr
        ++ "]\n" ++ c.content
      if maxChars < total + txt.length then parts
      else bpLoop maxChars cs (i + 1) (total + txt.length) (parts ++ [txt])

/-- Model of `_build_prompt(question, chunks, context_max_chars)`. -/
def build_prompt (question : String) (chunks : List RetrievalCandidate)
    (contextMaxChars : Nat) : String :=
  "CONTEXTE:\n" ++ String.intercalate "\n" (bpLoop contextMaxChars chunks 0 0 [])
    ++ "\n\nQUESTION: " ++ question

/-- The user prompt assembled in steps 6 of `stream_rag_response`: context
prompt from the relevant chunks, or one of the two general-knowledge
fallbacks. -/
def ragPrompt (question : String) (chunks : List RetrievalCandidate)
    (contextMaxChars : Nat) : String :=
  if relevantChunks chunks ≠ [] then
    build_prompt question (relevantChunks chunks) contextMaxChars
  else if chunks ≠ [] then
    "Les documents disponibles ne contiennent pas d\x27information pertinente "
      ++ "pour cette question. Réponds depuis tes connaissances générales.\n\n"
      ++ "QUESTION : " ++ question
  else
    "Aucun document n\x27est disponible. Réponds depuis tes connaissances "
      ++ "générales.\n\nQUESTION : " ++ question

/-- One event of the server-sent stream produced by the orchestrator. -/
inductive Event
  | sources (items : List SourceItem)
  | token (text : String)
  | done
  | error (msg : String)
deriving DecidableEq, Repr

/-- One line received from the generation backend stream, after
`json.loads`: a malformed or empty line (skipped), a line whose `done` field
is truthy, or an ordinary line carrying `message.content`. -/
inductive StreamLine
  | malformed
  | doneLine
  | tokenLine (content : String)
deriving DecidableEq, Repr

/-- How the backend stream terminates when no `done` line was seen: cleanly,
by timeout, or by another transport error. -/
inductive StreamErr
  | timeoutErr
  | otherErr (msg : String)
deriving DecidableEq, Repr

/-- The error-event message for a stream failure. -/
def streamErrMsg (model : String) : StreamErr → String
  | .timeoutErr => "Timeout: le modèle " ++ model ++ " met trop de temps à répondre"
  | .otherErr m => m

/-- Events emitted by the streaming loop (step 9, identical in the
`skip_rag` branch): tokens for non-empty contents, a single `done` on the
`done` marker (the loop breaks), and a single `error` event if the iteration
ends in an exception; nothing if the stream just ends. -/
def streamEvents (model : String) : List StreamLine → Option StreamErr → List Event
  | [], none => []
  | [], some e => [Event.error (streamErrMsg model e)]
  | l :: rest, exc =>
      match l with
      | .malformed => streamEvents model rest exc
      | .doneLine => [Event.done]
      | .tokenLine t =>
          (if t = "" then [] else [Event.token t]) ++ streamEvents model rest exc

/-- Outcome of the query-embedding step (`get_embedding`). -/
inductive EmbedOutcome
  | ok (v : List ℚ)
  | err (msg : String)
deriving Repr

/-- Outcome of the retrieval step (`search_chunks`). -/
inductive SearchOutcome
  | ok (chunks : List RetrievalCandidate)
  | err (msg : String)
deriving Repr

/-- The external outcomes one invocation of `stream_rag_response` observes:
embedding result, search result, vision-probe answer (no events), and the
generation backend stream. -/
structure RagEnv where
  embed : EmbedOutcome
  search : SearchOutcome
  visionSupported : Bool
  lines : List StreamLine
  streamExc : Option StreamErr
deriving Repr

/-- The event sequence yielded by `stream_rag_response`. In `skip_rag` mode:
an empty `sources` event then the stream. Otherwise: an embedding failure or
a search failure each yield a single `error` event (before any `sources`
event); on success, one `sources` event listing ALL retrieved candidates,
then the stream events. Vision probing and prompt assembly emit nothing. -/
def stream_rag_response (skipRag : Bool) (model : String) (_question : String)
    (env : RagEnv) : List Event :=
  if skipRag then
    Event.sources [] :: streamEvents model env.lines env.streamExc
  else
    match env.embed with
    | .err m => [Event.error ("Erreur embedding: " ++ m)]
    | .ok _ =>
      match env.search with
      | .err m => [Event.error ("Erreur recherche: " ++ m)]
      | .ok chunks =>
          Event.sources (chunks.map toSource)
            :: streamEvents model env.lines env.streamExc

/-- Recogniser for `sources` events. -/
def isSourcesEv : Event → Bool
  | .sources _ => true
  | _ => false

/-- Recogniser for terminal events (`done` or `error`). -/
def isTerminalEv : Event → Bool
  | .done => true
  | .error _ => true
  | _ => false

/-! ## Vision capability cache — `_check_vision_support` -/

/-- Model of `_VISION_CACHE_TTL = 300` seconds. -/
def VISION_CACHE_TTL : ℚ := 300

/-- The `_vision_cache` dict: model name to (supports, timestamp). -/
def VisionCache := List (String × Bool × ℚ)
deriving DecidableEq, Repr

/-- Dict lookup `_vision_cache.get(model)`. -/
def lookupVision : VisionCache → String → Option (Bool × ℚ)
  | [], _ => none
  | e :: es, m => if e.1 == m then some e.2 else lookupVision es m

/-- Dict assignment `_vision_cache[model] = {...}`. -/
def insertVision : VisionCache → String → Bool → ℚ → VisionCache
  | [], m, sup, ts => [(m, sup, ts)]
  | e :: es, m, sup, ts =>
      if e.1 == m then (m, sup, ts) :: es else e :: insertVision es m sup ts

/-- Outcome of the `/api/show` probe: an HTTP response with status code and
(for 200) the stringified metadata, or a raised transport exception. -/
inductive ProbeOutcome
  | status (code : Nat) (body : String)
  | exc
deriving DecidableEq, Repr

/-- Model of `"clip" in info or "vision" in info or "multimodal" in info` on the
lower-cased metadata string. -/
def hasVisionMarker (body : String) : Bool :=
  let info := (strLower body).toList
  subIn "clip".toList info || subIn "vision".toList info
    || subIn "multimodal".toList info

/-- The probe-and-cache path of `_check_vision_support` (cache miss or stale
entry): a non-200 status caches and returns `False`; a 200 response caches
the keyword-match result; an exception returns `False` WITHOUT caching. -/
def freshVisionProbe (m : String) (now : ℚ) (probe : ProbeOutcome)
    (cache : VisionCache) : Bool × VisionCache :=
  match probe with
  | .exc => (false, cache)
  | .status code body =>
      if code ≠ 200 then (false, insertVision cache m false now)
      else
        let sup := hasVisionMarker body
        (sup, insertVision cache m sup now)

/-- Model of `_check_vision_support(model, http_client)`: serve a cache entry younger
than the TTL, otherwise probe. -/
def check_vision_support (m : String) (now : ℚ) (probe : ProbeOutcome)
    (cache : VisionCache) : Bool × VisionCache :=
  match lookupVision cache m with
  | some (sup, ts) =>
      if now - ts < VISION_CACHE_TTL then (sup, cache)
      else freshVisionProbe m now probe cache
  | none => freshVisionProbe m now probe cache

/-! ## Model availability resolver — `list_available_models` -/

/-- Model of `m.split(":")[0]`: the model name with any `:tag` suffix removed. -/
def baseName (s : String) : String := (s.splitOn ":").headD s

/-- The match predicate `m == a or m.split(":")[0] == a.split(":")[0]`. -/
def modelMatches (m a : String) : Bool :=
  m == a || baseName m == baseName a

/-- Model of `list_available_models(http_client)` given the outcome of the `/api/tags`
call: on success, the allow-list filtered to models loaded on the backend
(full-name or base-name match); on failure, the whole allow-list. -/
def list_available_models (allow : List String) :
    Option (List String) → List String
  | none => allow
  | some avail => allow.filter (fun m => avail.any (fun a => modelMatches m a))

/-- A sequence of invocations of `list_available_models`, one backend
response consumed per call: the function holds no state, so every call
queries the backend. Returns the per-call results and the number of backend
queries issued. -/
def availRun (allow : List String) :
    List (Option (List String)) → List (List String) × Nat
  | [] => ([], 0)
  | r :: rs =>
      let t := availRun allow rs
      (list_available_models allow r :: t.1, t.2 + 1)

/-- Modelled from the spec (section 4.7), for comparison with the code: a
resolver whose result is cached with a 30 s TTL and whose empty results are
never cached. Each call carries its time and the backend response it would
receive if it queried; returns per-call results and the number of backend
queries actually issued. -/
def claimCachedRun (allow : List String) (cache : Option (List String × ℚ)) :
    List (ℚ × Option (List String)) → List (List String) × Nat
  | [] => ([], 0)
  | (t, resp) :: rs =>
      match cache with
      | some (v, ts) =>
          if t - ts < 30 then
            let rec2 := claimCachedRun allow (some (v, ts)) rs
            (v :: rec2.1, rec2.2)
          else
            let r := list_available_models allow resp
            let cache2 := if r = [] then none else some (r, t)
            let rec2 := claimCachedRun allow cache2 rs
            (r :: rec2.1, rec2.2 + 1)
      | none =>
          let r := list_available_models allow resp
          let cache2 := if r = [] then none else some (r, t)
          let rec2 := claimCachedRun allow cache2 rs
          (r :: rec2.1, rec2.2 + 1)

/-- Display order of the reranker output: non-increasing relevance score. -/
def byScoreDesc (a b : RetrievalCandidate) : Prop := b.score ≤ a.score

/-- Scenario D of the spec: retrieved candidates with scores 0.9, 0.5, 0.3. -/
def scenarioDChunks : List RetrievalCandidate :=
  [⟨"d1", "t1", 1, "c1", 9 / 10, [], []⟩,
   ⟨"d2", "t2", 2, "c2", 1 / 2, [], []⟩,
   ⟨"d3", "t3", 3, "c3", 3 / 10, [], []⟩]

/-- An invocation environment whose retrieval succeeds with scenario D. -/
def scenarioDEnv : RagEnv :=
  { embed := .ok [], search := .ok scenarioDChunks, visionSupported := false,
    lines := [StreamLine.doneLine], streamExc := none }

/-- An invocation environment whose query-embedding step fails. -/
def embedFailEnv : RagEnv :=
  { embed := .err "boom", search := .ok [], visionSupported := false,
    lines := [], streamExc := none }

/-! # Theorems -/

/-! ## Shared helper lemmas -/

theorem ensure_collection_ready (coll : String) (dim : Nat) (s : QdrantState) :
    (ensure_collection coll dim s).ready = true := by
  unfold ensure_collection
  by_cases h : s.ready <;> by_cases h2 : coll ∈ s.collections <;> simp [h, h2]

theorem ensure_collection_of_ready (coll : String) (dim : Nat) (s : QdrantState)
    (h : s.ready = true) : ensure_collection coll dim s = s := by
  unfold ensure_collection; simp [h]

/-- C9: `ensure_collection` is idempotent and each call performs at most one
existence check and at most one creation; every call after the first is a
no-op because the first call always sets `_collection_ready`. -/
theorem c9_ensure_collection_idempotent (coll : String) (dim : Nat) (s : QdrantState) :
    ensure_collection coll dim (ensure_collection coll dim s) = ensure_collection coll dim s
    ∧ (ensure_collection coll dim s).checks ≤ s.checks + 1
    ∧ (ensure_collection coll dim s).creates ≤ s.creates + 1 := by
  refine ⟨ensure_collection_of_ready _ _ _ (ensure_collection_ready coll dim s), ?_, ?_⟩ <;>
    · unfold ensure_collection
      by_cases h : s.ready <;> by_cases h2 : coll ∈ s.collections <;> simp [h, h2]

theorem upsertPoints_length (ids : Nat → String) (docId : String) :
    ∀ (cs : List UpChunk) (es : List (List ℚ)) (i : Nat),
      (upsertPoints ids docId i cs es).length = min cs.length es.length
  | [], es, i => by cases es <;> simp [upsertPoints]
  | _ :: _, [], i => by simp [upsertPoints]
  | c :: cs, e :: es, i => by
      simp [upsertPoints, upsertPoints_length ids docId cs es (i + 1),
        Nat.succ_min_succ]

theorem upsertPoints_ids (ids : Nat → String) (docId : String) :
    ∀ (cs : List UpChunk) (es : List (List ℚ)) (i : Nat),
      (upsertPoints ids docId i cs es).map (fun p => p.id)
        = (List.range' i (min cs.length es.length)).map ids
  | [], es, i => by cases es <;> simp [upsertPoints]
  | _ :: _, [], i => by simp [upsertPoints]
  | c :: cs, e :: es, i => by
      simp [upsertPoints, upsertPoints_ids ids docId cs es (i + 1),
        Nat.succ_min_succ, List.range'_succ]

theorem upsertPoints_vectors (ids : Nat → String) (docId : String) :
    ∀ (cs : List UpChunk) (es : List (List ℚ)) (i : Nat),
      (upsertPoints ids docId i cs es).map (fun p => p.vector)
        = es.take cs.length
  | [], es, i => by cases es <;> simp [upsertPoints]
  | _ :: _, [], i => by simp [upsertPoints]
  | c :: cs, e :: es, i => by
      simp [upsertPoints, upsertPoints_vectors ids docId cs es (i + 1)]

theorem upsertPoints_contents (ids : Nat → String) (docId : String) :
    ∀ (cs : List UpChunk) (es : List (List ℚ)) (i : Nat),
      (upsertPoints ids docId i cs es).map (fun p => p.payload.content)
        = (cs.take es.length).map (fun c => c.content)
  | [], es, i => by cases es <;> simp [upsertPoints]
  | _ :: _, [], i => by simp [upsertPoints]
  | c :: cs, e :: es, i => by
      simp [upsertPoints, upsertPoints_contents ids docId cs es (i + 1)]

/-- C10: `upsert_chunks` with mismatched lengths silently zips: it writes and
returns `min(len(chunks), len(embeddings))` points, pairing the i-th chunk
with the i-th embedding; every point id comes from the fresh uuid4 supply
(`ids i` for the i-th point) and does not depend on the chunk contents. -/
theorem c10_upsert_zip_truncation (ids : Nat → String) (chunks : List UpChunk)
    (embeddings : List (List ℚ)) (docId : String) :
    (upsert_chunks ids chunks embeddings docId).2 = min chunks.length embeddings.length
    ∧ (upsert_chunks ids chunks embeddings docId).1.length
        = min chunks.length embeddings.length
    ∧ (upsert_chunks ids chunks embeddings docId).1.map (fun p => p.id)
        = (List.range (min chunks.length embeddings.length)).map ids
    ∧ (upsert_chunks ids chunks embeddings docId).1.map (fun p => p.vector)
        = embeddings.take chunks.length
    ∧ (upsert_chunks ids chunks embeddings docId).1.map (fun p => p.payload.content)
        = (chunks.take embeddings.length).map (fun c => c.content) := by
  refine ⟨upsertPoints_length ids docId chunks embeddings 0,
    upsertPoints_length ids docId chunks embeddings 0, ?_,
    upsertPoints_vectors ids docId chunks embeddings 0,
    upsertPoints_contents ids docId chunks embeddings 0⟩
  rw [upsert_chunks, upsertPoints_ids ids docId chunks embeddings 0,
    List.range_eq_range']

/-- C2 (amended): `chunk_markdown` returns a non-empty list whenever the
input has at least one non-whitespace character (the final fallback fires
exactly when no chunk was produced and `markdown.strip()` is non-empty). -/
theorem c2_chunk_markdown_nonempty_amended (markdown : String)
    (chunkSize chunkOverlap : Nat) (h : pyStrip markdown ≠ "") :
    chunk_markdown markdown chunkSize chunkOverlap ≠ [] := by
  unfold chunk_markdown
  by_cases he :
      sectionLoop chunkSize chunkOverlap (splitByHeaders markdown) "Introduction" 1 [] = [] <;>
    simp [he, h]

theorem c2_witness :
    pyStrip "bonjour" ≠ "" ∧ chunk_markdown "bonjour" 600 50 ≠ [] :=
  ⟨by decide, c2_chunk_markdown_nonempty_amended "bonjour" 600 50 (by decide)⟩

/-- C2 counterexample: on the empty string and on whitespace-only input,
`chunk_markdown` returns the EMPTY list — not a single placeholder chunk —
because the fallback is guarded by `markdown.strip()`. -/
theorem c2_counterexample :
    chunk_markdown "" = [] ∧ chunk_markdown " \n " = [] := by decide

/-- C7 (amended): the resolver returns the allow-list filtered to the models
the backend reports as loaded, matching full name or base name (`:tag`
stripped); on backend failure it returns the whole allow-list. It holds no
cache: every call issues a backend query, so a call after an empty report
trivially re-queries. -/
theorem c7_resolver_amended (allow : List String)
    (responses : List (Option (List String))) (avail : List String) (m : String) :
    (availRun allow responses).2 = responses.length
    ∧ (availRun allow responses).1 = responses.map (list_available_models allow)
    ∧ list_available_models allow none = allow
    ∧ (m ∈ list_available_models allow (some avail)
        ↔ m ∈ allow ∧ ∃ a ∈ avail, m = a ∨ baseName m = baseName a) := by
  refine ⟨?_, ?_, rfl, ?_⟩
  · induction responses with
    | nil => rfl
    | cons r rs ih => simp [availRun, ih]
  · induction responses with
    | nil => rfl
    | cons r rs ih => simp [availRun, ih]
  · simp [list_available_models, List.mem_filter, List.any_eq_true, modelMatches]

/-- C7 counterexample: two consecutive calls (in particular, within any 30 s
window) both query the backend, and the second returns a result that differs
from the first — the code caches nothing, while the claimed 30 s-TTL cache
(`claimCachedRun`, modelled from the spec) would answer the second call from
the cache with one single backend query. -/
theorem c7_counterexample :
    (availRun ["m"] [some ["m"], some []]).2 = 2
    ∧ (availRun ["m"] [some ["m"], some []]).1 = [["m"], []]
    ∧ (claimCachedRun ["m"] none [(0, some ["m"]), (1, some [])]).2 = 1
    ∧ (claimCachedRun ["m"] none [(0, some ["m"]), (1, some [])]).1 = [["m"], ["m"]] := by
  refine ⟨rfl, rfl, ?_, ?_⟩ <;>
    norm_num [claimCachedRun, list_available_models, modelMatches, List.filter]

theorem lookupVision_insertVision (cache : VisionCache) (m : String)
    (sup : Bool) (ts : ℚ) :
    lookupVision (insertVision cache m sup ts) m = some (sup, ts) := by
  induction cache with
  | nil => simp [insertVision, lookupVision]
  | cons e es ih =>
      by_cases h : e.1 == m <;> simp [insertVision, lookupVision, h, ih]

/-- C8 (amended): with no usable cache entry, an HTTP non-200 probe response
makes `_check_vision_support` return `False` and cache the negative result,
and any further call within the 300 s TTL is served from the cache without
probing; a transport exception, however, returns `False` WITHOUT writing the
cache. -/
theorem c8_vision_cache_amended (m : String) (now now2 : ℚ) (code : Nat)
    (body : String) (cache : VisionCache) (p2 : ProbeOutcome)
    (hl : lookupVision cache m = none) (hc : code ≠ 200)
    (ht : now2 - now < VISION_CACHE_TTL) :
    check_vision_support m now .exc cache = (false, cache)
    ∧ check_vision_support m now (.status code body) cache
        = (false, insertVision cache m false now)
    ∧ check_vision_support m now2 p2 (insertVision cache m false now)
        = (false, insertVision cache m false now) := by
  refine ⟨?_, ?_, ?_⟩ <;>
    simp [check_vision_support, freshVisionProbe, hl, hc,
      lookupVision_insertVision, ht]

theorem c8_witness :
    lookupVision [] "llava" = none ∧ (500 : Nat) ≠ 200
    ∧ (10 : ℚ) - 0 < VISION_CACHE_TTL
    ∧ (check_vision_support "llava" 0 .exc [] = (false, [])
        ∧ check_vision_support "llava" 0 (.status 500 "nope") []
            = (false, insertVision [] "llava" false 0)
        ∧ check_vision_support "llava" 10 .exc (insertVision [] "llava" false 0)
            = (false, insertVision [] "llava" false 0)) :=
  ⟨rfl, by decide, by norm_num [VISION_CACHE_TTL],
    c8_vision_cache_amended "llava" 0 10 500 "nope" [] .exc rfl (by decide)
      (by norm_num [VISION_CACHE_TTL])⟩

/-- C8 counterexample: after a probe that fails with a transport exception,
nothing is cached — a second call for the same model one second later (well
inside the 300 s TTL) probes the backend again, and its answer depends on
that second probe (here it returns `true`), contradicting the claim that the
negative result is cached until the TTL expires. -/
theorem c8_counterexample :
    check_vision_support "m" 0 .exc [] = (false, [])
    ∧ (check_vision_support "m" 1 (.status 200 "llava VISION tower")
        (check_vision_support "m" 0 .exc []).2).1 = true := by decide

theorem streamEvents_shape (model : String) (lines : List StreamLine)
    (exc : Option StreamErr) :
    ∃ (ts : List String) (term : List Event),
      streamEvents model lines exc = ts.map Event.token ++ term
      ∧ (term = [] ∨ term = [Event.done] ∨ ∃ msg, term = [Event.error msg]) := by
  induction lines with
  | nil =>
      cases exc with
      | none => exact ⟨[], [], rfl, Or.inl rfl⟩
      | some e => exact ⟨[], [Event.error (streamErrMsg model e)], rfl,
          Or.inr (Or.inr ⟨streamErrMsg model e, rfl⟩)⟩
  | cons l rest ih =>
      obtain ⟨ts, term, heq, hterm⟩ := ih
      cases l with
      | malformed => exact ⟨ts, term, by simp [streamEvents, heq], hterm⟩
      | doneLine => exact ⟨[], [Event.done], rfl, Or.inr (Or.inl rfl)⟩
      | tokenLine t =>
          by_cases h : t = ""
          · exact ⟨ts, term, by simp [streamEvents, h, heq], hterm⟩
          · exact ⟨t :: ts, term, by simp [streamEvents, h, heq], hterm⟩

/-- C1 (amended): every invocation of `stream_rag_response` emits either a
single `error` event and nothing else (embedding or retrieval failure in RAG
mode, before any `sources` event), or exactly one `sources` event first,
followed by zero or more `token` events, followed by AT MOST one terminal
event (`done` or `error`); no event follows a terminal event, and the
sequence may end without a terminal event when the backend stream ends
without a `done` marker. -/
theorem c1_event_order_amended (skipRag : Bool) (model question : String)
    (env : RagEnv) :
    (∃ msg, stream_rag_response skipRag model question env = [Event.error msg])
    ∨ (∃ (items : List SourceItem) (ts : List String) (term : List Event),
        stream_rag_response skipRag model question env
          = Event.sources items :: (ts.map Event.token ++ term)
        ∧ (term = [] ∨ term = [Event.done] ∨ ∃ msg, term = [Event.error msg])) := by
  unfold stream_rag_response
  by_cases hs : skipRag
  · obtain ⟨ts, term, heq, hterm⟩ := streamEvents_shape model env.lines env.streamExc
    exact Or.inr ⟨[], ts, term, by simp [hs, heq], hterm⟩
  · simp only [hs, if_false, Bool.false_eq_true]
    cases he : env.embed with
    | err m => exact Or.inl ⟨"Erreur embedding: " ++ m, rfl⟩
    | ok v =>
        cases hq : env.search with
        | err m => exact Or.inl ⟨"Erreur recherche: " ++ m, rfl⟩
        | ok chunks =>
            obtain ⟨ts, term, heq, hterm⟩ :=
              streamEvents_shape model env.lines env.streamExc
            exact Or.inr ⟨chunks.map toSource, ts, term, by simp [heq], hterm⟩

/-- C1 counterexample: when the query-embedding step fails, the whole event
sequence is a single `error` event and contains NO `sources` event, while
the claim requires exactly one `sources` event in every invocation. -/
theorem c1_counterexample :
    stream_rag_response false "m" "q" embedFailEnv
      = [Event.error "Erreur embedding: boom"]
    ∧ ((stream_rag_response false "m" "q" embedFailEnv).filter isSourcesEv).length
        = 0 := by
  refine ⟨rfl, rfl⟩

/-- C4: on a successful retrieval the single `sources` event (the head of the
event sequence) lists ALL retrieved candidates regardless of score, while
exactly the candidates with score at least 0.45 form the relevant partition
that is handed to `_build_prompt`. -/
theorem c4_filter_and_sources (model question : String) (env : RagEnv)
    (v : List ℚ) (chunks : List RetrievalCandidate) (budget : Nat)
    (he : env.embed = .ok v) (hs : env.search = .ok chunks) :
    (stream_rag_response false model question env).head?
        = some (Event.sources (chunks.map toSource))
    ∧ (chunks.map toSource).length = chunks.length
    ∧ (∀ c ∈ chunks, toSource c ∈ chunks.map toSource)
    ∧ (∀ c, c ∈ relevantChunks chunks ↔ c ∈ chunks ∧ MIN_RELEVANT_SCORE ≤ c.score)
    ∧ (relevantChunks chunks ≠ [] →
        ragPrompt question chunks budget
          = build_prompt question (relevantChunks chunks) budget) := by
  refine ⟨?_, by simp, fun c hc => List.mem_map_of_mem _ hc,
    fun c => by simp [relevantChunks], fun h => by simp [ragPrompt, h]⟩
  simp [stream_rag_response, he, hs]

theorem c4_witness :
    (relevantChunks scenarioDChunks).length = 2
    ∧ (scenarioDChunks.map toSource).length = 3
    ∧ (stream_rag_response false "m" "q" scenarioDEnv).head?
        = some (Event.sources (scenarioDChunks.map toSource)) := by
  have h := c4_filter_and_sources "m" "q" scenarioDEnv [] scenarioDChunks 12000 rfl rfl
  refine ⟨?_, h.2.1.trans (by decide), h.1⟩
  norm_num [relevantChunks, scenarioDChunks, MIN_RELEVANT_SCORE, List.filter]

theorem tbAux_flatten :
    ∀ (l acc : List String) (n : Nat), (tbAux l acc n).flatten = acc.reverse ++ l := by
  intro l
  induction l with
  | nil =>
      intro acc n
      by_cases h : acc.isEmpty
      · simp [tbAux, h, List.isEmpty_iff.mp h]
      · simp [tbAux, h]
  | cons t ts ih =>
      intro acc n
      cases n with
      | zero => simp [tbAux, ih]
      | succ m => simp [tbAux, ih]

theorem tbAux_batches_le :
    ∀ (l acc : List String) (n : Nat), acc.length + n = EMBEDDING_BATCH_SIZE →
      ∀ b ∈ tbAux l acc n, b.length ≤ EMBEDDING_BATCH_SIZE := by
  intro l
  induction l with
  | nil =>
      intro acc n hinv b hb
      by_cases h : acc.isEmpty
      · simp [tbAux, h] at hb
      · simp [tbAux, h] at hb
        simp [hb]; omega
  | cons t ts ih =>
      intro acc n hinv b hb
      cases n with
      | zero =>
          simp [tbAux] at hb
          rcases hb with hb | hb
          · simp [hb]; omega
          · exact ih [t] (EMBEDDING_BATCH_SIZE - 1) (by simp [EMBEDDING_BATCH_SIZE]) b hb
      | succ m =>
          simp only [tbAux] at hb
          exact ih (t :: acc) m (by simp at hinv ⊢; omega) b hb

theorem single_embedding_ok (embed : String → List ℚ) (t : String)
    (h : embed t ≠ []) : single_embedding embed t = Except.ok (embed t) := by
  simp [single_embedding, h]

theorem mapM_single_embedding_ok (embed : String → List ℚ) :
    ∀ (b : List String), (∀ t ∈ b, embed t ≠ []) →
      b.mapM (single_embedding embed) = Except.ok (b.map embed) := by
  intro b
  induction b with
  | nil => intro _; rfl
  | cons t ts ih =>
      intro h
      rw [List.mapM_cons, single_embedding_ok embed t (h t (by simp)),
        ih (fun x hx => h x (by simp [hx]))]
      rfl

theorem dgeLoop_ok (embed : String → List ℚ) :
    ∀ (bs : List (List String)) (acc : List (List ℚ)),
      (∀ b ∈ bs, ∀ t ∈ b, embed t ≠ []) →
      dgeLoop embed bs acc = Except.ok (acc ++ bs.flatten.map embed) := by
  intro bs
  induction bs with
  | nil => intro acc _; simp [dgeLoop]
  | cons b bs ih =>
      intro acc h
      rw [dgeLoop, mapM_single_embedding_ok embed b (h b (by simp))]
      show dgeLoop embed bs (acc ++ b.map embed) = _
      rw [ih (acc ++ b.map embed) (fun x hx => h x (by simp [hx]))]
      simp

/-- C3: `embed_many` (the `_do_get_embeddings` loop) is order-preserving and
length-preserving — when every backend call yields a non-empty vector the
result is exactly the input mapped through the embedding oracle — the empty
input yields the empty output, and the input is partitioned into batches of
at most `EMBEDDING_BATCH_SIZE = 8` texts whose in-order concatenation is the
input (batches are processed strictly one after the other). -/
theorem c3_embed_many_contract (embed : String → List ℚ) (texts : List String)
    (h : ∀ t ∈ texts, embed t ≠ []) :
    do_get_embeddings embed texts = Except.ok (texts.map embed)
    ∧ (texts.map embed).length = texts.length
    ∧ do_get_embeddings embed [] = Except.ok []
    ∧ (toBatches texts).flatten = texts
    ∧ ∀ b ∈ toBatches texts, b.length ≤ EMBEDDING_BATCH_SIZE := by
  have hflat : (toBatches texts).flatten = texts := by
    rw [toBatches, tbAux_flatten]; rfl
  refine ⟨?_, by simp, rfl, hflat, tbAux_batches_le texts [] EMBEDDING_BATCH_SIZE rfl⟩
  rw [do_get_embeddings, dgeLoop_ok embed (toBatches texts) []
    (fun b hb t ht => h t (by rw [← hflat]; exact List.mem_flatten.mpr ⟨b, hb, ht⟩))]
  rw [List.nil_append, hflat]

theorem c3_witness :
    (∀ t ∈ ["aa", "b"], (fun s => [(s.length : ℚ)]) t ≠ [])
    ∧ do_get_embeddings (fun s => [(s.length : ℚ)]) ["aa", "b"]
        = Except.ok (["aa", "b"].map (fun s => [(s.length : ℚ)])) :=
  ⟨by decide,
    (c3_embed_many_contract (fun s => [(s.length : ℚ)]) ["aa", "b"] (by decide)).1⟩

theorem pickBest_congr (k1 k2 : RetrievalCandidate → ℚ)
    (h : ∀ c, k1 c = k2 c) :
    ∀ (l : List RetrievalCandidate) (b : RetrievalCandidate),
      pickBest k1 b l = pickBest k2 b l := by
  intro l
  induction l with
  | nil => intro b; rfl
  | cons x xs ih => intro b; simp only [pickBest, h, ih]

theorem pickBest_mem (k : RetrievalCandidate → ℚ) :
    ∀ (l : List RetrievalCandidate) (b : RetrievalCandidate),
      pickBest k b l ∈ b :: l := by
  intro l
  induction l with
  | nil => intro b; simp [pickBest]
  | cons x xs ih =>
      intro b
      simp only [pickBest]
      by_cases h : k b < k x
      · simp only [h, if_true]
        rcases List.mem_cons.mp (ih x) with h2 | h2
        · simp [h2]
        · simp [List.mem_cons, h2]
      · simp only [h, if_false]
        rcases List.mem_cons.mp (ih b) with h2 | h2
        · simp [h2]
        · simp [List.mem_cons, h2]

theorem le_pickBest (k : RetrievalCandidate → ℚ) :
    ∀ (l : List RetrievalCandidate) (b x : RetrievalCandidate),
      x ∈ b :: l → k x ≤ k (pickBest k b l) := by
  intro l
  induction l with
  | nil =>
      intro b x hx
      simp at hx
      simp [pickBest, hx]
  | cons y ys ih =>
      intro b x hx
      simp only [pickBest]
      have hble : k b ≤ k (if k b < k y then y else b) := by
        by_cases h : k b < k y <;> simp [h]
        exact le_of_lt h
      have hyle : k y ≤ k (if k b < k y then y else b) := by
        by_cases h : k b < k y <;> simp [h]
        exact le_of_not_lt h
      rcases List.mem_cons.mp hx with rfl | hx2
      · exact le_trans hble
          (ih (if k x < k y then y else x) _ (List.mem_cons_self _ _))
      · rcases List.mem_cons.mp hx2 with rfl | hx3
        · exact le_trans hyle
            (ih (if k b < k x then x else b) _ (List.mem_cons_self _ _))
        · exact ih _ x (List.mem_cons_of_mem _ hx3)

theorem pickBest_of_head_max (k : RetrievalCandidate → ℚ) :
    ∀ (l : List RetrievalCandidate) (b : RetrievalCandidate),
      (∀ x ∈ l, k x ≤ k b) → pickBest k b l = b := by
  intro l
  induction l with
  | nil => intro b _; rfl
  | cons x xs ih =>
      intro b h
      have hx : ¬ k b < k x := not_lt_of_le (h x (by simp))
      simp only [pickBest, hx, if_false]
      exact ih b (fun y hy => h y (by simp [hy]))

theorem sdAux_nil : ∀ f : Nat, sdAux f [] = [] := by
  intro f; cases f <;> rfl

theorem mem_sdAux :
    ∀ (f : Nat) (l : List RetrievalCandidate) (x : RetrievalCandidate),
      x ∈ sdAux f l → x ∈ l := by
  intro f
  induction f with
  | zero => intro l x hx; simp [sdAux] at hx
  | succ g ih =>
      intro l x hx
      cases l with
      | nil => simp [sdAux] at hx
      | cons r rs =>
          simp only [sdAux] at hx
          rcases List.mem_cons.mp hx with rfl | hx2
          · exact pickBest_mem _ rs r
          · exact List.mem_of_mem_erase (ih _ x hx2)

theorem sdAux_length :
    ∀ (f : Nat) (l : List RetrievalCandidate),
      (sdAux f l).length = min f l.length := by
  intro f
  induction f with
  | zero => intro l; simp [sdAux]
  | succ g ih =>
      intro l
      cases l with
      | nil => simp [sdAux]
      | cons r rs =>
          have hb : pickBest (fun c => c.score) r rs ∈ r :: rs := pickBest_mem _ rs r
          simp only [sdAux, List.length_cons, ih]
          rw [List.length_erase_of_mem hb]
          simp only [List.length_cons, Nat.add_sub_cancel]
          omega

theorem sdAux_perm :
    ∀ (f : Nat) (l : List RetrievalCandidate), l.length ≤ f → (sdAux f l).Perm l := by
  intro f
  induction f with
  | zero =>
      intro l h
      rw [List.length_eq_zero.mp (Nat.le_zero.mp h)]
      exact List.Perm.refl _
  | succ g ih =>
      intro l h
      cases l with
      | nil => exact List.Perm.refl _
      | cons r rs =>
          have hb : pickBest (fun c => c.score) r rs ∈ r :: rs := pickBest_mem _ rs r
          have hlen : ((r :: rs).erase (pickBest (fun c => c.score) r rs)).length ≤ g := by
            rw [List.length_erase_of_mem hb]; simp at h ⊢; omega
          exact (List.Perm.cons _ (ih _ hlen)).trans (List.perm_cons_erase hb).symm

theorem sdAux_sorted :
    ∀ (f : Nat) (l : List RetrievalCandidate), (sdAux f l).Pairwise byScoreDesc := by
  intro f
  induction f with
  | zero => intro l; simp [sdAux]
  | succ g ih =>
      intro l
      cases l with
      | nil => simp [sdAux]
      | cons r rs =>
          simp only [sdAux, List.pairwise_cons]
          refine ⟨?_, ih _⟩
          intro y hy
          have hyl : y ∈ r :: rs :=
            List.mem_of_mem_erase (mem_sdAux g _ y hy)
          exact le_pickBest (fun c => c.score) rs r y hyl

theorem sdAux_of_sorted :
    ∀ (f : Nat) (l : List RetrievalCandidate),
      l.Pairwise byScoreDesc → l.length ≤ f → sdAux f l = l := by
  intro f
  induction f with
  | zero =>
      intro l _ h
      rw [List.length_eq_zero.mp (Nat.le_zero.mp h)]; rfl
  | succ g ih =>
      intro l hs h
      cases l with
      | nil => rfl
      | cons r rs =>
          obtain ⟨hhead, htail⟩ := List.pairwise_cons.mp hs
          have hpick : pickBest (fun c => c.score) r rs = r :=
            pickBest_of_head_max _ rs r (fun x hx => hhead x hx)
          simp only [sdAux, hpick, List.erase_cons_head]
          rw [ih rs htail (by simp at h; omega)]

theorem take_sdAux :
    ∀ (g f : Nat) (l : List RetrievalCandidate),
      (sdAux g l).take f = sdAux (min f g) l := by
  intro g
  induction g with
  | zero => intro f l; simp [sdAux]
  | succ g2 ih =>
      intro f l
      cases l with
      | nil => simp [sdAux_nil]
      | cons r rs =>
          cases f with
          | zero => simp [sdAux]
          | succ f2 =>
              simp only [sdAux, List.take_succ_cons, ih, Nat.succ_min_succ]

theorem sdAux_fuel_irrel :
    ∀ (f : Nat) (l : List RetrievalCandidate), l.length ≤ f →
      sdAux f l = sdAux l.length l := by
  intro f l h
  have h1 : (sdAux f l).take l.length = sdAux (min l.length f) l := take_sdAux f l.length l
  rw [Nat.min_eq_left h] at h1
  rw [← h1, List.take_of_length_le]
  rw [sdAux_length]; omega

theorem mmrLoop_lam_one (sim : List ℚ → List ℚ → ℚ) :
    ∀ (f : Nat) (sel rem : List RetrievalCandidate),
      mmrLoop sim 1 f sel rem = sel ++ sdAux f rem := by
  intro f
  induction f with
  | zero => intro sel rem; simp [mmrLoop, sdAux]
  | succ g ih =>
      intro sel rem
      cases rem with
      | nil => simp [mmrLoop, sdAux]
      | cons r rs =>
          have hkey : ∀ c : RetrievalCandidate,
              (if sel.isEmpty then c.score
                else 1 * c.score - (1 - 1) * maxSim sim c sel) = c.score := by
            intro c
            by_cases h : sel.isEmpty <;> simp [h]
          simp only [mmrLoop]
          rw [pickBest_congr _ _ hkey rs r, ih]
          simp [sdAux, List.append_assoc]

theorem mmrLoop_subperm (sim : List ℚ → List ℚ → ℚ) (lam : ℚ) :
    ∀ (f : Nat) (sel rem : List RetrievalCandidate),
      (mmrLoop sim lam f sel rem).Subperm (sel ++ rem) := by
  intro f
  induction f with
  | zero =>
      intro sel rem
      exact (List.sublist_append_left sel rem).subperm
  | succ g ih =>
      intro sel rem
      cases rem with
      | nil =>
          simp only [mmrLoop, List.append_nil]
          exact List.Subperm.refl _
      | cons r rs =>
          simp only [mmrLoop]
          set key := fun c : RetrievalCandidate =>
            if sel.isEmpty then c.score
            else lam * c.score - (1 - lam) * maxSim sim c sel with hkdef
          have hb : pickBest key r rs ∈ r :: rs := pickBest_mem key rs r
          have h1 := ih (sel ++ [pickBest key r rs]) ((r :: rs).erase (pickBest key r rs))
          have h2 : (sel ++ [pickBest key r rs]) ++ (r :: rs).erase (pickBest key r rs)
              = sel ++ (pickBest key r rs :: (r :: rs).erase (pickBest key r rs)) := by
            simp [List.append_assoc]
          have h3 : (sel ++ (pickBest key r rs :: (r :: rs).erase (pickBest key r rs))).Perm
              (sel ++ (r :: rs)) :=
            List.Perm.append_left sel (List.perm_cons_erase hb).symm
          rw [h2] at h1
          exact h1.trans h3.subperm

theorem mmrLoop_length (sim : List ℚ → List ℚ → ℚ) (lam : ℚ) :
    ∀ (f : Nat) (sel rem : List RetrievalCandidate),
      (mmrLoop sim lam f sel rem).length = sel.length + min f rem.length := by
  intro f
  induction f with
  | zero => intro sel rem; simp [mmrLoop]
  | succ g ih =>
      intro sel rem
      cases rem with
      | nil => simp [mmrLoop]
      | cons r rs =>
          simp only [mmrLoop]
          set key := fun c : RetrievalCandidate =>
            if sel.isEmpty then c.score
            else lam * c.score - (1 - lam) * maxSim sim c sel with hkdef
          have hb : pickBest key r rs ∈ r :: rs := pickBest_mem key rs r
          rw [ih]
          rw [List.length_erase_of_mem hb]
          simp only [List.length_append, List.length_cons, List.length_nil,
            Nat.add_sub_cancel]
          omega

/-- C5: with `lambda = 1.0` the MMR reranker degenerates to pure relevance
ranking — its output is exactly the first `top_k` elements of the stable
descending sort of the candidates by relevance score (for every abstract
similarity function, whose term is multiplied by `1 - lambda = 0`); the
auxiliary conjuncts certify that `sortScoreDesc` is a permutation of the
candidates sorted by non-increasing score. -/
theorem c5_mmr_lambda_one_pure_relevance (sim : List ℚ → List ℚ → ℚ)
    (candidates : List RetrievalCandidate) (q : List ℚ) (top_k : Nat) :
    mmr_rerank sim candidates q top_k 1 = (sortScoreDesc candidates).take top_k
    ∧ (sortScoreDesc candidates).Perm candidates
    ∧ (sortScoreDesc candidates).Pairwise byScoreDesc := by
  refine ⟨?_, sdAux_perm _ _ le_rfl, sdAux_sorted _ _⟩
  unfold mmr_rerank
  by_cases hc : candidates = []
  · simp [hc, sortScoreDesc, sdAux_nil]
  · simp only [hc, if_false]
    rw [mmrLoop_lam_one, List.nil_append]
    have hs : sortScoreDesc (sdAux top_k candidates) = sdAux top_k candidates := by
      unfold sortScoreDesc
      exact sdAux_of_sorted _ _ (sdAux_sorted _ _) le_rfl
    rw [hs]
    unfold sortScoreDesc
    rw [take_sdAux]
    rcases Nat.le_total top_k candidates.length with h | h
    · rw [Nat.min_eq_left h]
    · rw [Nat.min_eq_right h, sdAux_fuel_irrel top_k candidates h]

/-- C6: for every candidate pool, `top_k` and `lambda`, the MMR reranker
returns exactly `min(top_k, len(candidates))` items, never uses an input
item twice (its output is a permutation of a sublist of the input, hence
duplicate-free whenever the input is), and is sorted by non-increasing
relevance score (selection order is not the display order). -/
theorem c6_mmr_rerank_contract (sim : List ℚ → List ℚ → ℚ)
    (candidates : List RetrievalCandidate) (q : List ℚ) (top_k : Nat) (lam : ℚ) :
    (mmr_rerank sim candidates q top_k lam).length = min top_k candidates.length
    ∧ (mmr_rerank sim candidates q top_k lam).Subperm candidates
    ∧ (candidates.Nodup → (mmr_rerank sim candidates q top_k lam).Nodup)
    ∧ (mmr_rerank sim candidates q top_k lam).Pairwise byScoreDesc := by
  unfold mmr_rerank
  by_cases hc : candidates = []
  · simp [hc, List.nil_subperm]
  · simp only [hc, if_false]
    have hperm : (sortScoreDesc (mmrLoop sim lam top_k [] candidates)).Perm
        (mmrLoop sim lam top_k [] candidates) :=
      sdAux_perm _ _ le_rfl
    have hsub : (mmrLoop sim lam top_k [] candidates).Subperm candidates := by
      have h := mmrLoop_subperm sim lam top_k [] candidates
      rwa [List.nil_append] at h
    have hsub2 : (sortScoreDesc (mmrLoop sim lam top_k [] candidates)).Subperm candidates :=
      hperm.subperm.trans hsub
    refine ⟨?_, hsub2, ?_, sdAux_sorted _ _⟩
    · rw [hperm.length_eq, mmrLoop_length]
      simp
    · intro hnd
      obtain ⟨l, hp, hsl⟩ := hsub2
      exact hp.nodup_iff.mp (hnd.sublist hsl)

theorem c6_witness :
    (mmr_rerank (fun _ _ => 0)
        [⟨"d", "t", 1, "a", 1 / 2, [], []⟩, ⟨"d", "t", 1, "b", 9 / 10, [], []⟩]
        [] 1 (6 / 10)).length
      = min 1 2
    ∧ (mmr_rerank (fun _ _ => 0)
        [⟨"d", "t", 1, "a", 1 / 2, [], []⟩, ⟨"d", "t", 1, "b", 9 / 10, [], []⟩]
        [] 1 (6 / 10)).Nodup := by
  have h := c6_mmr_rerank_contract (fun _ _ => 0)
    [⟨"d", "t", 1, "a", 1 / 2, [], []⟩, ⟨"d", "t", 1, "b", 9 / 10, [], []⟩]
    [] 1 (6 / 10)
  exact ⟨h.1, h.2.2.1 (by decide)⟩
